import Mathlib

/-!
Verification of the universal-price-tracker consolidation engine, collectors,
history store and update orchestrator.

Modelling conventions: JavaScript numbers are modelled as real numbers with
exact arithmetic (`Math.sqrt` becomes `Real.sqrt`, `Math.pow (x, 2)` becomes
`x ^ 2`); timestamps are integers (milliseconds); JavaScript `Map`s become
functions out of `String`; a JavaScript array mutated in place is modelled by
returning the post-call list alongside the result; an `async` adapter call is
modelled by passing the adapter's outcome (`Option ℝ`: `none` for an absent
value, an exception, or a timeout) as an argument.  JavaScript truthiness of a
number (`if (p)`) is modelled as `p ≠ 0` (`NaN`, which is also falsy, has no
counterpart in exact arithmetic).  `Array.prototype.sort` with a comparator is
stable (ECMAScript 2019); a stable sort for a total preorder has a unique
output, so it is modelled by a stable insertion sort on lists.
-/

namespace PriceTracker

/-- One source observation, as pushed by a collector:
`{ source, price, reliability }`. -/
structure Obs where
  source : String
  price : ℝ
  reliability : ℝ

instance : Inhabited Obs := ⟨⟨"", 0, 0⟩⟩

/-- Result of `verifyAndConsolidate`.  As in the source, the `variance` field
actually holds the coefficient of variation. -/
structure ConsResult where
  price : ℝ
  primarySource : String
  verified : Bool
  variance : ℝ

/-- Stable insertion (descending by `reliability`): a later element is placed
before an earlier one only when its reliability is strictly greater. -/
noncomputable def insertDesc (x : Obs) : List Obs → List Obs
  | [] => [x]
  | y :: ys => if y.reliability ≤ x.reliability then x :: y :: ys else y :: insertDesc x ys

/-- Stable descending-by-reliability sort, modelling the in-place
`sources.sort((a, b) => b.reliability - a.reliability)` of the source
(stable per the ECMAScript specification). -/
noncomputable def sortDesc (l : List Obs) : List Obs := l.foldr insertDesc []

/-- `[].reduce((a, b) => a + b)` on a nonempty list of numbers; JavaScript
throws on the empty list, which the model maps to the junk value `0`. -/
def reduceAdd : List ℝ → ℝ
  | [] => 0
  | p :: ps => ps.foldl (· + ·) p

/-- Translation of `verifyAndConsolidate(sources)` shared verbatim by the
crypto / metals / real-estate collectors (they differ only in the hardcoded
verification threshold, here a parameter).  The second component is the state
of the caller's `sources` array after the call: the source sorts it in place
in the multi-observation branch. -/
noncomputable def verifyAndConsolidate (threshold : ℝ) (sources : List Obs) :
    ConsResult × List Obs :=
  if sources.length = 1 then
    ({ price := sources.headI.price
       primarySource := sources.headI.source
       verified := false
       variance := 0 }, sources)
  else
    let totalWeight := sources.foldl (fun acc s => acc + s.reliability) 0
    let weightedSum := sources.foldl (fun acc s => acc + s.price * s.reliability) 0
    let weightedAverage := weightedSum / totalWeight
    let prices := sources.map (·.price)
    let mean := reduceAdd prices / prices.length
    let variance := prices.foldl (fun acc p => acc + (p - mean) ^ 2) 0 / prices.length
    let standardDeviation := Real.sqrt variance
    let coefficientOfVariation := standardDeviation / mean
    let verified : Bool := decide (coefficientOfVariation < threshold)
    let sorted := sortDesc sources
    let primarySource := sorted.headI
    ({ price := if verified then weightedAverage else primarySource.price
       primarySource := primarySource.source
       verified := verified
       variance := coefficientOfVariation }, sorted)

/-- Modelled from the spec: the first observation attaining the maximal
reliability ("deterministic tie-break: highest reliability; on exact ties, the
observation encountered first in input order wins"). -/
noncomputable def firstMaxRel : List Obs → Obs
  | [] => default
  | x :: xs => xs.foldl (fun best y => if best.reliability < y.reliability then y else best) x

/-- Modelled from the spec: unweighted population mean of a price list. -/
noncomputable def popMean (ps : List ℝ) : ℝ := ps.sum / ps.length

/-- Modelled from the spec: unweighted population variance (divide by N, not
N − 1). -/
noncomputable def popVariance (ps : List ℝ) : ℝ :=
  ((ps.map (fun p => (p - popMean ps) ^ 2)).sum) / ps.length

/-- Modelled from the spec: reliability-weighted mean price
`Σ price·reliability / Σ reliability`. -/
noncomputable def weightedMean (obs : List Obs) : ℝ :=
  ((obs.map (fun o => o.price * o.reliability)).sum) / ((obs.map (·.reliability)).sum)

/-- Modelled from the spec (§4.1 ConsolidationEngine): the reference
consolidation result.  Single observation: unverified, CV 0, its own price and
source.  Otherwise: CV = population stddev / population mean, verified iff
CV < threshold, price = weighted mean when verified else the most reliable
observation's price, primary source always the first most-reliable
observation. -/
noncomputable def refConsolidate (threshold : ℝ) (observations : List Obs) : ConsResult :=
  if observations.length = 1 then
    { price := observations.headI.price
      primarySource := observations.headI.source
      verified := false
      variance := 0 }
  else
    let prices := observations.map (·.price)
    let cv := Real.sqrt (popVariance prices) / popMean prices
    let verified : Bool := decide (cv < threshold)
    let primary := firstMaxRel observations
    { price := if verified then weightedMean observations else primary.price
      primarySource := primary.source
      verified := verified
      variance := cv }

/-- Left-biased pick of the more reliable of two observations (ties keep the
left, i.e. earlier, one). -/
noncomputable def pick (a b : Obs) : Obs := if a.reliability < b.reliability then b else a

lemma pick_assoc (a b c : Obs) : pick (pick a b) c = pick a (pick b c) := by
  unfold pick
  split_ifs <;> first | rfl | linarith

lemma foldl_pick_cons (x y : Obs) (ys : List Obs) :
    List.foldl pick x (y :: ys) = pick x (List.foldl pick y ys) := by
  induction ys generalizing x y with
  | nil => rfl
  | cons z zs ih =>
    show List.foldl pick (pick x y) (z :: zs) = _
    rw [ih (pick x y) z, pick_assoc, ← ih y z]

lemma firstMaxRel_eq_foldl_pick (x : Obs) (xs : List Obs) :
    firstMaxRel (x :: xs) = List.foldl pick x xs := rfl

lemma sortDesc_cons (x : Obs) (xs : List Obs) :
    sortDesc (x :: xs) = insertDesc x (sortDesc xs) := rfl

lemma insertDesc_ne_nil (x : Obs) (l : List Obs) : insertDesc x l ≠ [] := by
  cases l with
  | nil => simp [insertDesc]
  | cons y ys =>
    unfold insertDesc
    split_ifs <;> simp

lemma sortDesc_ne_nil (x : Obs) (xs : List Obs) : sortDesc (x :: xs) ≠ [] := by
  rw [sortDesc_cons]; exact insertDesc_ne_nil _ _

lemma headI_insertDesc (x y : Obs) (ys : List Obs) :
    (insertDesc x (y :: ys)).headI = if y.reliability ≤ x.reliability then x else y := by
  unfold insertDesc
  split_ifs <;> rfl

/-- Head of the stable descending sort is the first observation attaining the
maximal reliability. -/
lemma headI_sortDesc (x : Obs) (xs : List Obs) :
    (sortDesc (x :: xs)).headI = firstMaxRel (x :: xs) := by
  induction xs generalizing x with
  | nil => rfl
  | cons y ys ih =>
    rw [sortDesc_cons]
    obtain ⟨h, t, ht⟩ : ∃ h t, sortDesc (y :: ys) = h :: t := by
      cases hs : sortDesc (y :: ys) with
      | nil => exact absurd hs (sortDesc_ne_nil y ys)
      | cons h t => exact ⟨h, t, rfl⟩
    have hhead : (sortDesc (y :: ys)).headI = h := by rw [ht]; rfl
    rw [ht, headI_insertDesc, firstMaxRel_eq_foldl_pick, foldl_pick_cons,
      ← firstMaxRel_eq_foldl_pick, ← ih y, hhead]
    unfold pick
    rcases lt_trichotomy x.reliability h.reliability with hlt | heq | hgt
    · rw [if_neg (not_le.mpr hlt), if_pos hlt]
    · rw [if_pos (le_of_eq heq.symm), if_neg (by rw [heq]; exact lt_irrefl _)]
    · rw [if_pos (le_of_lt hgt), if_neg (not_lt.mpr (le_of_lt hgt))]

lemma pick_cases (a b : Obs) : pick a b = a ∨ pick a b = b := by
  unfold pick; split_ifs <;> simp

lemma reliability_le_pick_left (a b : Obs) : a.reliability ≤ (pick a b).reliability := by
  unfold pick; split_ifs with hab
  · exact le_of_lt hab
  · exact le_refl _

lemma reliability_le_pick_right (a b : Obs) : b.reliability ≤ (pick a b).reliability := by
  unfold pick; split_ifs with hab
  · exact le_refl _
  · exact not_lt.mp hab

lemma firstMaxRel_cons_cons (x y : Obs) (ys : List Obs) :
    firstMaxRel (x :: y :: ys) = pick x (firstMaxRel (y :: ys)) := by
  rw [firstMaxRel_eq_foldl_pick, foldl_pick_cons, ← firstMaxRel_eq_foldl_pick]

lemma firstMaxRel_mem (x : Obs) (xs : List Obs) : firstMaxRel (x :: xs) ∈ x :: xs := by
  induction xs generalizing x with
  | nil => simp [firstMaxRel]
  | cons y ys ih =>
    rw [firstMaxRel_cons_cons]
    rcases pick_cases x (firstMaxRel (y :: ys)) with hp | hp
    · rw [hp]; exact List.mem_cons_self _ _
    · rw [hp]; exact List.mem_cons_of_mem _ (ih y)

lemma firstMaxRel_maximal (x : Obs) (xs : List Obs) :
    ∀ y ∈ x :: xs, y.reliability ≤ (firstMaxRel (x :: xs)).reliability := by
  induction xs generalizing x with
  | nil =>
    intro y hy
    rw [List.mem_singleton] at hy
    subst hy
    simp [firstMaxRel]
  | cons z zs ih =>
    intro y hy
    rw [firstMaxRel_cons_cons]
    rcases List.mem_cons.mp hy with rfl | hy2
    · exact reliability_le_pick_left _ _
    · exact le_trans (ih z y hy2) (reliability_le_pick_right _ _)

lemma firstMaxRel_first (x : Obs) (xs : List Obs) :
    ∃ as bs, x :: xs = as ++ firstMaxRel (x :: xs) :: bs ∧
      ∀ a ∈ as, a.reliability < (firstMaxRel (x :: xs)).reliability := by
  induction xs generalizing x with
  | nil => exact ⟨[], [], by simp [firstMaxRel], by simp⟩
  | cons y ys ih =>
    obtain ⟨as, bs, heq, hlt⟩ := ih y
    rw [firstMaxRel_cons_cons]
    by_cases hx : x.reliability < (firstMaxRel (y :: ys)).reliability
    · refine ⟨x :: as, bs, ?_, ?_⟩
      · rw [pick, if_pos hx, List.cons_append, ← heq]
      · intro a ha
        rw [pick, if_pos hx]
        rcases List.mem_cons.mp ha with rfl | ha2
        · exact hx
        · exact hlt a ha2
    · exact ⟨[], y :: ys, by rw [pick, if_neg hx]; rfl, by simp⟩

lemma foldl_add_map {α : Type} (f : α → ℝ) (l : List α) (a : ℝ) :
    l.foldl (fun acc s => acc + f s) a = a + (l.map f).sum := by
  induction l generalizing a with
  | nil => simp
  | cons x xs ih => simp [ih, add_assoc]

lemma reduceAdd_eq_sum (l : List ℝ) : reduceAdd l = l.sum := by
  cases l with
  | nil => rfl
  | cons p ps =>
    show ps.foldl (· + ·) p = (p :: ps).sum
    have : ps.foldl (fun acc s => acc + id s) p = p + (ps.map id).sum := foldl_add_map id ps p
    simpa using this

/-- Refinement of the source consolidation by the spec's reference
consolidation: same result on every nonempty observation list. -/
lemma consolidate_fst_eq_ref (t : ℝ) (obs : List Obs) (h : obs ≠ []) :
    (verifyAndConsolidate t obs).1 = refConsolidate t obs := by
  obtain ⟨x, xs, rfl⟩ : ∃ x xs, obs = x :: xs := by
    cases obs with
    | nil => exact absurd rfl h
    | cons x xs => exact ⟨x, xs, rfl⟩
  unfold verifyAndConsolidate refConsolidate
  by_cases h1 : (x :: xs).length = 1
  · rw [if_pos h1, if_pos h1]
  · rw [if_neg h1, if_neg h1]
    simp only [foldl_add_map, reduceAdd_eq_sum, headI_sortDesc, zero_add,
      popMean, popVariance, weightedMean]

lemma insertDesc_perm (x : Obs) (l : List Obs) : (insertDesc x l).Perm (x :: l) := by
  induction l with
  | nil => exact List.Perm.refl _
  | cons y ys ih =>
    unfold insertDesc
    split_ifs
    · exact List.Perm.refl _
    · exact (ih.cons y).trans (List.Perm.swap x y ys)

lemma sortDesc_perm (l : List Obs) : (sortDesc l).Perm l := by
  induction l with
  | nil => exact List.Perm.refl _
  | cons x xs ih =>
    rw [sortDesc_cons]
    exact (insertDesc_perm x (sortDesc xs)).trans (ih.cons x)

lemma insertDesc_sorted (x : Obs) (l : List Obs)
    (hl : l.Pairwise (fun a b => b.reliability ≤ a.reliability)) :
    (insertDesc x l).Pairwise (fun a b => b.reliability ≤ a.reliability) := by
  induction l with
  | nil => simp [insertDesc]
  | cons y ys ih =>
    rw [List.pairwise_cons] at hl
    unfold insertDesc
    split_ifs with hyx
    · rw [List.pairwise_cons]
      refine ⟨?_, ?_⟩
      · intro z hz
        rcases List.mem_cons.mp hz with rfl | hz2
        · exact hyx
        · exact le_trans (hl.1 z hz2) hyx
      · rw [List.pairwise_cons]
        exact hl
    · rw [List.pairwise_cons]
      refine ⟨?_, ih hl.2⟩
      intro z hz
      rcases List.mem_cons.mp ((insertDesc_perm x ys).mem_iff.mp hz) with rfl | hz2
      · exact le_of_lt (not_le.mp hyx)
      · exact hl.1 z hz2

lemma sortDesc_sorted (l : List Obs) :
    (sortDesc l).Pairwise (fun a b => b.reliability ≤ a.reliability) := by
  induction l with
  | nil => simp [sortDesc]
  | cons x xs ih =>
    rw [sortDesc_cons]
    exact insertDesc_sorted x _ ih

lemma consolidate_snd (t : ℝ) (obs : List Obs) :
    (verifyAndConsolidate t obs).2 = if obs.length = 1 then obs else sortDesc obs := by
  unfold verifyAndConsolidate
  split_ifs <;> rfl

/-- Concrete pair of observations from the spec's worked example. -/
noncomputable def exampleObs : List Obs := [⟨"A", 100, 0.9⟩, ⟨"B", 104, 0.8⟩]

lemma popMean_example : popMean [(100 : ℝ), 104] = 102 := by
  unfold popMean
  norm_num

lemma popVariance_example : popVariance [(100 : ℝ), 104] = 4 := by
  unfold popVariance popMean
  norm_num

lemma sqrt_four : Real.sqrt 4 = 2 := by
  rw [show (4 : ℝ) = 2 ^ 2 by norm_num]
  exact Real.sqrt_sq (by norm_num)

lemma firstMaxRel_example : firstMaxRel exampleObs = ⟨"A", 100, 0.9⟩ := by
  unfold exampleObs firstMaxRel
  simp only [List.foldl]
  rw [if_neg (by norm_num : ¬ (⟨"A", 100, 0.9⟩ : Obs).reliability < (⟨"B", 104, 0.8⟩ : Obs).reliability)]

lemma weightedMean_example : weightedMean exampleObs = 1732 / 17 := by
  unfold weightedMean exampleObs
  simp only [List.map_cons, List.map_nil, List.sum_cons, List.sum_nil]
  norm_num

lemma ref_example (t : ℝ) :
    refConsolidate t exampleObs =
      { price := if decide ((1 : ℝ) / 51 < t) then 1732 / 17 else 100
        primarySource := "A"
        verified := decide ((1 : ℝ) / 51 < t)
        variance := 1 / 51 } := by
  have hprices : exampleObs.map (·.price) = [(100 : ℝ), 104] := rfl
  have hlen : exampleObs.length ≠ 1 := by simp [exampleObs]
  have hcv : Real.sqrt (popVariance (exampleObs.map (·.price))) /
      popMean (exampleObs.map (·.price)) = 1 / 51 := by
    rw [hprices, popVariance_example, popMean_example, sqrt_four]
    norm_num
  unfold refConsolidate
  rw [if_neg hlen]
  simp only [hcv, firstMaxRel_example, weightedMean_example]

lemma consolidate_example (t : ℝ) :
    (verifyAndConsolidate t exampleObs).1 =
      { price := if decide ((1 : ℝ) / 51 < t) then 1732 / 17 else 100
        primarySource := "A"
        verified := decide ((1 : ℝ) / 51 < t)
        variance := 1 / 51 } := by
  rw [consolidate_fst_eq_ref t exampleObs (by simp [exampleObs]), ref_example]

/-- C1: on every nonempty observation list the source consolidation agrees
with the spec's reference consolidation (single observation: unverified, CV 0,
its own price; two or more: CV = population stddev / population mean, verified
iff CV < threshold, price = weighted mean when verified else the most reliable
observation's price); on the worked example (A,100,0.9), (B,104,0.8) the
population mean is 102, the variance 4, the weighted mean 1732/17 ≈ 101.88,
the CV 1/51 ≈ 1.96 %, and threshold 0.02 yields a verified price 1732/17
while threshold 0.01 yields an unverified price 100. -/
theorem consolidation_matches_reference :
    (∀ (t : ℝ) (obs : List Obs), obs ≠ [] →
        (verifyAndConsolidate t obs).1 = refConsolidate t obs)
    ∧ popMean [(100 : ℝ), 104] = 102
    ∧ popVariance [(100 : ℝ), 104] = 4
    ∧ weightedMean exampleObs = 1732 / 17
    ∧ (verifyAndConsolidate 0.02 exampleObs).1 =
        { price := 1732 / 17, primarySource := "A", verified := true, variance := 1 / 51 }
    ∧ (verifyAndConsolidate 0.01 exampleObs).1 =
        { price := 100, primarySource := "A", verified := false, variance := 1 / 51 } := by
  refine ⟨consolidate_fst_eq_ref, popMean_example, popVariance_example,
    weightedMean_example, ?_, ?_⟩
  · rw [consolidate_example 0.02,
      show decide ((1 : ℝ) / 51 < 0.02) = true from decide_eq_true (by norm_num)]
    simp
  · rw [consolidate_example 0.01,
      show decide ((1 : ℝ) / 51 < 0.01) = false from decide_eq_false (by norm_num)]
    simp

/-- Witness for C1: the refinement clause applied to a concrete singleton
list. -/
theorem consolidation_matches_reference_witness :
    (verifyAndConsolidate 0.05 [⟨"X", 7, 1⟩]).1 = refConsolidate 0.05 [⟨"X", 7, 1⟩] :=
  consolidation_matches_reference.1 0.05 [⟨"X", 7, 1⟩] (by simp)

/-- C2: with two or more observations the consolidated `primarySource` is the
source of the first observation attaining the maximal reliability, for every
threshold (hence independently of `verified`): that observation is a member of
the list, no observation is strictly more reliable, and every observation
before it in input order is strictly less reliable. -/
theorem primary_source_most_reliable (t : ℝ) (obs : List Obs) (h : 2 ≤ obs.length) :
    (verifyAndConsolidate t obs).1.primarySource = (firstMaxRel obs).source
    ∧ firstMaxRel obs ∈ obs
    ∧ (∀ y ∈ obs, y.reliability ≤ (firstMaxRel obs).reliability)
    ∧ ∃ as bs, obs = as ++ firstMaxRel obs :: bs ∧
        ∀ a ∈ as, a.reliability < (firstMaxRel obs).reliability := by
  obtain ⟨x, xs, rfl⟩ : ∃ x xs, obs = x :: xs := by
    cases obs with
    | nil => simp at h
    | cons x xs => exact ⟨x, xs, rfl⟩
  have hne : x :: xs ≠ [] := by simp
  have h1 : (x :: xs).length ≠ 1 := by
    simp only [List.length_cons] at h ⊢
    omega
  refine ⟨?_, firstMaxRel_mem x xs, firstMaxRel_maximal x xs, firstMaxRel_first x xs⟩
  rw [consolidate_fst_eq_ref t _ hne]
  unfold refConsolidate
  rw [if_neg h1]

/-- Concrete two-observation list in which the second observation is the more
reliable one. -/
noncomputable def witnessObs2 : List Obs := [⟨"P", 1, 0.5⟩, ⟨"Q", 2, 0.7⟩]

/-- Witness for C2 at a concrete two-observation list. -/
theorem primary_source_most_reliable_witness :
    (verifyAndConsolidate 0 witnessObs2).1.primarySource = (firstMaxRel witnessObs2).source
    ∧ firstMaxRel witnessObs2 ∈ witnessObs2
    ∧ (∀ y ∈ witnessObs2, y.reliability ≤ (firstMaxRel witnessObs2).reliability)
    ∧ ∃ as bs, witnessObs2 = as ++ firstMaxRel witnessObs2 :: bs ∧
        ∀ a ∈ as, a.reliability < (firstMaxRel witnessObs2).reliability :=
  primary_source_most_reliable 0 witnessObs2 (by simp [witnessObs2])

/-- Concrete two-observation list whose more reliable observation comes
second, so the in-place sort reorders it. -/
noncomputable def mutObs : List Obs := [⟨"B", 104, 0.8⟩, ⟨"A", 100, 0.9⟩]

/-- Counterexample for C8: consolidation does not leave its input observation
list unchanged — on `mutObs` the post-call array differs from the input. -/
theorem consolidate_mutates_input :
    (verifyAndConsolidate 0.02 mutObs).2 ≠ mutObs := by
  have hsort : (verifyAndConsolidate 0.02 mutObs).2 = [⟨"A", 100, 0.9⟩, ⟨"B", 104, 0.8⟩] := by
    rw [consolidate_snd, if_neg (by simp [mutObs])]
    norm_num [sortDesc, insertDesc, mutObs]
  rw [hsort]
  intro hcontra
  have h2 := congrArg (fun l => l.headI.source) hcontra
  simp [mutObs, List.headI] at h2

/-- C8 (amended): consolidation performs no I/O, but it re-sorts the caller's
observation array in place: after the call the array holds the same
observations (a permutation of the input) in stably sorted non-increasing
reliability order; a single-observation array is left unchanged. -/
theorem consolidate_array_after_call (t : ℝ) (obs : List Obs) :
    ((verifyAndConsolidate t obs).2).Perm obs
    ∧ (obs.length = 1 → (verifyAndConsolidate t obs).2 = obs)
    ∧ (obs.length ≠ 1 →
        ((verifyAndConsolidate t obs).2).Pairwise
          (fun a b => b.reliability ≤ a.reliability)) := by
  rw [consolidate_snd]
  by_cases h : obs.length = 1
  · rw [if_pos h]
    exact ⟨List.Perm.refl _, fun _ => rfl, fun hc => absurd h hc⟩
  · rw [if_neg h]
    exact ⟨sortDesc_perm obs, fun hc => absurd hc h, fun _ => sortDesc_sorted obs⟩

/-- Witness for C8's amended theorem: a single-observation array is unchanged
by the call. -/
theorem consolidate_array_after_call_witness :
    (verifyAndConsolidate 0.3 [⟨"S", 5, 0.9⟩]).2 = [⟨"S", 5, 0.9⟩] :=
  (consolidate_array_after_call 0.3 [⟨"S", 5, 0.9⟩]).2.1 (by simp)

/-- One stored time-series point, as pushed by `updateItemData`. -/
structure HistoryPoint where
  price : ℝ
  timestamp : ℤ
  source : Option String
  verified : Bool

/-- Translation of the history append of `updateItemData`:
`history.push(point)` followed by
`if (history.length > 1000) history.splice(0, history.length - 1000)`. -/
def appendCapped (history : List HistoryPoint) (p : HistoryPoint) : List HistoryPoint :=
  let h2 := history ++ [p]
  if 1000 < h2.length then h2.drop (h2.length - 1000) else h2

lemma appendCapped_eq_drop (h : List HistoryPoint) (p : HistoryPoint) :
    appendCapped h p = (h ++ [p]).drop (h.length + 1 - 1000) := by
  simp only [appendCapped, List.length_append, List.length_singleton]
  split_ifs with hc
  · rfl
  · rw [show h.length + 1 - 1000 = 0 by omega, List.drop_zero]

lemma appendCapped_length (h : List HistoryPoint) (p : HistoryPoint) :
    (appendCapped h p).length = min (h.length + 1) 1000 := by
  simp only [appendCapped, List.length_append, List.length_singleton]
  split_ifs with hc <;>
    simp only [List.length_drop, List.length_append, List.length_singleton] <;>
    omega

lemma foldl_appendCapped_bounded (ps : List HistoryPoint) :
    ∀ acc : List HistoryPoint, acc.length ≤ 1000 →
      (List.foldl appendCapped acc ps).length ≤ 1000 := by
  induction ps with
  | nil => intro acc hacc; exact hacc
  | cons p ps ih =>
    intro acc _
    rw [List.foldl_cons]
    exact ih _ (by rw [appendCapped_length]; omega)

lemma foldl_appendCapped_no_overflow (ps : List HistoryPoint) :
    ∀ acc : List HistoryPoint, acc.length + ps.length ≤ 1000 →
      List.foldl appendCapped acc ps = acc ++ ps := by
  induction ps with
  | nil => intro acc _; simp
  | cons p ps ih =>
    intro acc hlen
    simp only [List.length_cons] at hlen
    rw [List.foldl_cons,
      show appendCapped acc p = acc ++ [p] by
        simp only [appendCapped, List.length_append, List.length_singleton]
        rw [if_neg (by omega)],
      ih _ (by simp; omega)]
    simp

/-- C4: the history append keeps the last `min (n + 1) 1000` points — the new
point goes at the end and the front is truncated; its result never exceeds
1000 points, so any sequence of appends from the empty history stays within
the cap; appending 1001 points to an empty history leaves exactly the last
1000, evicting only the single oldest point. -/
theorem history_retention_cap :
    (∀ (h : List HistoryPoint) (p : HistoryPoint),
        appendCapped h p = (h ++ [p]).drop (h.length + 1 - 1000))
    ∧ (∀ (h : List HistoryPoint) (p : HistoryPoint),
        (appendCapped h p).length = min (h.length + 1) 1000)
    ∧ (∀ ps : List HistoryPoint, (List.foldl appendCapped [] ps).length ≤ 1000)
    ∧ (∀ ps : List HistoryPoint, ps.length = 1001 →
        List.foldl appendCapped [] ps = ps.drop 1 ∧
          (List.foldl appendCapped [] ps).length = 1000) := by
  refine ⟨appendCapped_eq_drop, appendCapped_length,
    fun ps => foldl_appendCapped_bounded ps [] (by simp), ?_⟩
  intro ps hlen
  obtain ⟨qs, z, rfl⟩ : ∃ qs z, ps = qs ++ [z] := by
    rcases List.eq_nil_or_concat ps with rfl | ⟨qs, z, rfl⟩
    · simp at hlen
    · exact ⟨qs, z, by simp⟩
  have hq : qs.length = 1000 := by
    simp only [List.length_append, List.length_singleton] at hlen
    omega
  have hfold : List.foldl appendCapped [] (qs ++ [z]) = appendCapped qs z := by
    rw [List.foldl_append, List.foldl_cons, List.foldl_nil,
      foldl_appendCapped_no_overflow qs [] (by simp [hq]), List.nil_append]
  constructor
  · rw [hfold, appendCapped_eq_drop, hq]
  · rw [hfold, appendCapped_length, hq]
    omega

/-- Concrete history point used by the C4 witness. -/
noncomputable def witnessPoint : HistoryPoint := ⟨1, 0, none, false⟩

/-- Witness for C4: appending 1001 copies of a point to the empty history
leaves the last 1000 of them. -/
theorem history_retention_cap_witness :
    List.foldl appendCapped [] (List.replicate 1001 witnessPoint)
      = (List.replicate 1001 witnessPoint).drop 1
    ∧ (List.foldl appendCapped [] (List.replicate 1001 witnessPoint)).length = 1000 :=
  history_retention_cap.2.2.2 _ (by rw [List.length_replicate])

/-- Point shape returned by the historical query: `{price, timestamp,
verified}`. -/
structure ProjPoint where
  price : ℝ
  timestamp : ℤ
  verified : Bool

/-- Translation of `getHistoricalData(symbol, period)` (the per-symbol history
is passed directly; `now` is the clock reading). -/
def getHistoricalData (now : ℤ) (history : List HistoryPoint) (period : String) :
    List ProjPoint :=
  if history.length = 0 then []
  else
    let cutoffTime : ℤ :=
      if period = "1H" then now - 60 * 60 * 1000
      else if period = "1D" then now - 24 * 60 * 60 * 1000
      else if period = "1W" then now - 7 * 24 * 60 * 60 * 1000
      else if period = "1M" then now - 30 * 24 * 60 * 60 * 1000
      else if period = "3M" then now - 90 * 24 * 60 * 60 * 1000
      else if period = "1Y" then now - 365 * 24 * 60 * 60 * 1000
      else now - 7 * 24 * 60 * 60 * 1000
    (history.filter (fun point => cutoffTime ≤ point.timestamp)).map
      (fun point => ⟨point.price, point.timestamp, point.verified⟩)

/-- Modelled from the spec: window durations in milliseconds for
`{1H, 1D, 1W, 1M, 3M, 1Y}`, any other window treated as one week. -/
def windowMillis (period : String) : ℤ :=
  if period = "1H" then 60 * 60 * 1000
  else if period = "1D" then 24 * 60 * 60 * 1000
  else if period = "1W" then 7 * 24 * 60 * 60 * 1000
  else if period = "1M" then 30 * 24 * 60 * 60 * 1000
  else if period = "3M" then 90 * 24 * 60 * 60 * 1000
  else if period = "1Y" then 365 * 24 * 60 * 60 * 1000
  else 7 * 24 * 60 * 60 * 1000

/-- C5: the historical query returns exactly the stored points with
`timestamp ≥ now − window`, in stored order, projected to
`{price, timestamp, verified}`; a point exactly at the boundary is included
and the timestamp of a strictly older point never appears in the result. -/
theorem historical_query_window (now : ℤ) (h : List HistoryPoint) (period : String) :
    getHistoricalData now h period
      = (h.filter (fun p => now - windowMillis period ≤ p.timestamp)).map
          (fun p => (⟨p.price, p.timestamp, p.verified⟩ : ProjPoint))
    ∧ (∀ p ∈ h, p.timestamp = now - windowMillis period →
        (⟨p.price, p.timestamp, p.verified⟩ : ProjPoint) ∈ getHistoricalData now h period)
    ∧ (∀ p ∈ h, p.timestamp < now - windowMillis period →
        p.timestamp ∉ (getHistoricalData now h period).map (fun q => q.timestamp)) := by
  have hmain : getHistoricalData now h period
      = (h.filter (fun p => now - windowMillis period ≤ p.timestamp)).map
          (fun p => (⟨p.price, p.timestamp, p.verified⟩ : ProjPoint)) := by
    unfold getHistoricalData
    by_cases hh : h.length = 0
    · rw [if_pos hh, List.length_eq_zero.mp hh]
      simp
    · rw [if_neg hh]
      have hcut : (if period = "1H" then now - 60 * 60 * 1000
          else if period = "1D" then now - 24 * 60 * 60 * 1000
          else if period = "1W" then now - 7 * 24 * 60 * 60 * 1000
          else if period = "1M" then now - 30 * 24 * 60 * 60 * 1000
          else if period = "3M" then now - 90 * 24 * 60 * 60 * 1000
          else if period = "1Y" then now - 365 * 24 * 60 * 60 * 1000
          else now - 7 * 24 * 60 * 60 * 1000) = now - windowMillis period := by
        unfold windowMillis
        split_ifs <;> rfl
      rw [hcut]
  refine ⟨hmain, ?_, ?_⟩
  · intro p hp hts
    rw [hmain]
    exact List.mem_map_of_mem _ (List.mem_filter.mpr ⟨hp, by simp [hts]⟩)
  · intro p _ hts hmem
    rw [hmain] at hmem
    obtain ⟨q, hq, hqts⟩ := List.mem_map.mp hmem
    obtain ⟨r, hr, rfl⟩ := List.mem_map.mp hq
    have hrge := (List.mem_filter.mp hr).2
    simp only [decide_eq_true_eq] at hrge
    simp only at hqts
    omega

/-- Witness for C5: a point whose timestamp is exactly `now − 1H` is included
in the one-hour query. -/
theorem historical_query_window_witness :
    (⟨5, 3600000, false⟩ : ProjPoint) ∈
      getHistoricalData 7200000 [⟨5, 3600000, none, false⟩] "1H" :=
  (historical_query_window 7200000 [⟨5, 3600000, none, false⟩] "1H").2.1
    ⟨5, 3600000, none, false⟩ (by simp) (by decide)

/-- Per-symbol result record returned by a collector: the success shape
`{symbol, success, price, source, verified, sources, variance}` and the
failure shape `{symbol, success, error, price: null, source: null,
verified: false}` are merged with `Option` fields (`none` for a field the
source leaves absent or `null`). -/
structure CollectionResult where
  symbol : String
  success : Bool
  error : Option String
  price : Option ℝ
  source : Option String
  verified : Bool
  sources : Option ℕ
  variance : Option ℝ

/-- One adapter push of `collectCryptoPrice`: the observation is pushed only
when the adapter outcome is present and truthy (`if (price)` — JavaScript
truthiness of a number, i.e. nonzero; an adapter error or timeout is `none`). -/
noncomputable def pushIfTruthy (name : String) (rel : ℝ) (x : Option ℝ) : List Obs :=
  match x with
  | some p => if p ≠ 0 then [⟨name, p, rel⟩] else []
  | none => []

/-- Translation of the source-gathering steps of `collectCryptoPrice`:
CoinGecko (0.9), Binance (0.95) and — only when the CoinMarketCap API key is
configured — CoinMarketCap (0.92), each guarded by truthiness only. -/
noncomputable def buildCryptoSources (cg bin cmc : Option ℝ) (cmcKeySet : Bool) : List Obs :=
  pushIfTruthy ("CoinGecko") 0.9 cg ++ pushIfTruthy ("Binance") 0.95 bin ++
    (if cmcKeySet then pushIfTruthy ("CoinMarketCap") 0.92 cmc else [])

/-- Translation of `collectCryptoPrice(symbol, mappings)` with the three
adapter outcomes passed as arguments. -/
noncomputable def collectCryptoPrice (symbol : String) (cg bin cmc : Option ℝ)
    (cmcKeySet : Bool) : CollectionResult :=
  let sources := buildCryptoSources cg bin cmc cmcKeySet
  if sources.length = 0 then
    { symbol := symbol, success := false, error := some ("No sources available"),
      price := none, source := none, verified := false, sources := none, variance := none }
  else
    let verifiedPrice := (verifyAndConsolidate 0.02 sources).1
    { symbol := symbol, success := true, error := none,
      price := some verifiedPrice.price, source := some verifiedPrice.primarySource,
      verified := verifiedPrice.verified, sources := some sources.length,
      variance := some verifiedPrice.variance }

/-- Translation of the filter of `collectRealEstatePrice`:
`sources.filter(s => s && s.price > 0)` (a `null`/absent entry is `none`). -/
noncomputable def validRealEstateSources (sources : List (Option Obs)) : List Obs :=
  sources.filterMap (fun s =>
    match s with
    | some o => if 0 < o.price then some o else none
    | none => none)

/-- Translation of `collectRealEstatePrice(symbol)` with the gathered adapter
pushes passed as an argument. -/
noncomputable def collectRealEstatePrice (symbol : String) (sources : List (Option Obs)) :
    CollectionResult :=
  let validSources := validRealEstateSources sources
  if validSources.length = 0 then
    { symbol := symbol, success := false, error := some ("No valid sources available"),
      price := none, source := none, verified := false, sources := none, variance := none }
  else
    let verifiedPrice := (verifyAndConsolidate 0.10 validSources).1
    { symbol := symbol, success := true, error := none,
      price := some verifiedPrice.price, source := some verifiedPrice.primarySource,
      verified := verifiedPrice.verified, sources := some validSources.length,
      variance := some verifiedPrice.variance }

/-- Counterexample for C6: with zero valid observations the collectors do
return a structured failure (success false), but the error message is
`"No sources available"` (crypto) resp. `"No valid sources available"`
(real estate), not `"no valid sources"` as the claim states. -/
theorem no_sources_message_differs :
    (collectCryptoPrice ("BTC") none none none false).success = false
    ∧ (collectCryptoPrice ("BTC") none none none false).error ≠ some ("no valid sources")
    ∧ (collectRealEstatePrice ("HOUSE-US") []).error ≠ some ("no valid sources") := by
  refine ⟨?_, ?_, ?_⟩ <;>
    simp [collectCryptoPrice, collectRealEstatePrice, buildCryptoSources,
      pushIfTruthy, validRealEstateSources]

/-- C6 (amended): whenever the gathered adapter outputs leave zero (valid)
observations, the collector returns a structured failure result — success
false, a `null` price and source, and the error message `"No sources
available"` (crypto) resp. `"No valid sources available"` (real estate) —
without invoking consolidation and without raising an exception (the model is
a total function). -/
theorem no_sources_structured_failure :
    (∀ (sym : String) (cg bin cmc : Option ℝ) (k : Bool),
        buildCryptoSources cg bin cmc k = [] →
        collectCryptoPrice sym cg bin cmc k =
          ⟨sym, false, some ("No sources available"), none, none, false, none, none⟩)
    ∧ (∀ (sym : String) (raw : List (Option Obs)),
        validRealEstateSources raw = [] →
        collectRealEstatePrice sym raw =
          ⟨sym, false, some ("No valid sources available"), none, none, false, none, none⟩) := by
  constructor
  · intro sym cg bin cmc k hempty
    simp only [collectCryptoPrice, hempty, List.length_nil, if_pos]
  · intro sym raw hempty
    simp only [collectRealEstatePrice, hempty, List.length_nil, if_pos]

/-- Witness for C6's amended theorem: the CoinMarketCap adapter returned a
price but its API key is not configured, so zero observations remain. -/
theorem no_sources_structured_failure_witness :
    collectCryptoPrice ("ETH") none none (some 5) false =
      ⟨"ETH", false, some ("No sources available"), none, none, false, none, none⟩ :=
  no_sources_structured_failure.1 ("ETH") none none (some 5) false
    (by simp [buildCryptoSources, pushIfTruthy])

lemma price_ne_zero_of_mem_pushIfTruthy (name : String) (rel : ℝ) (x : Option ℝ)
    (o : Obs) (h : o ∈ pushIfTruthy name rel x) : o.price ≠ 0 := by
  cases x with
  | none => simp [pushIfTruthy] at h
  | some p =>
    by_cases hp : p ≠ 0
    · simp only [pushIfTruthy, if_pos hp, List.mem_singleton] at h
      subst h
      exact hp
    · simp [pushIfTruthy, hp] at h

/-- Counterexample for C7: a negative CoinGecko price is truthy, so the crypto
collector does not discard it — the observation list passed to consolidation
contains a price that is not strictly positive, and the collector even reports
success for it. -/
theorem negative_price_not_discarded :
    buildCryptoSources (some (-5)) none none false = [⟨"CoinGecko", -5, 0.9⟩]
    ∧ (collectCryptoPrice ("BTC") (some (-5)) none none false).success = true
    ∧ ¬ (∀ o ∈ buildCryptoSources (some (-5)) none none false, 0 < o.price) := by
  have hb : buildCryptoSources (some (-5)) none none false = [⟨"CoinGecko", -5, 0.9⟩] := by
    simp only [buildCryptoSources, pushIfTruthy]
    rw [if_pos (by norm_num : ((-5 : ℝ) ≠ 0))]
    simp
  refine ⟨hb, ?_, ?_⟩
  · simp only [collectCryptoPrice, hb, List.length_singleton]
    rw [if_neg (by omega)]
  · intro hall
    have h5 := hall ⟨"CoinGecko", -5, 0.9⟩ (by rw [hb]; exact List.mem_singleton.mpr rfl)
    norm_num at h5

/-- C7 (amended): the crypto collector discards an adapter output only when it
is absent or zero (JavaScript truthiness), so every observation it passes to
consolidation has a nonzero — but not necessarily positive — price; the
real-estate collector filters `price > 0`, so every observation it passes to
consolidation has a strictly positive price. -/
theorem collector_price_filters :
    (∀ (cg bin cmc : Option ℝ) (k : Bool),
        ∀ o ∈ buildCryptoSources cg bin cmc k, o.price ≠ 0)
    ∧ (∀ raw : List (Option Obs), ∀ o ∈ validRealEstateSources raw, 0 < o.price) := by
  constructor
  · intro cg bin cmc k o ho
    simp only [buildCryptoSources, List.mem_append] at ho
    rcases ho with (hcg | hbin) | hcmc
    · exact price_ne_zero_of_mem_pushIfTruthy _ _ _ _ hcg
    · exact price_ne_zero_of_mem_pushIfTruthy _ _ _ _ hbin
    · rcases k with _ | _
      · simp at hcmc
      · exact price_ne_zero_of_mem_pushIfTruthy _ _ _ _ (by simpa using hcmc)
  · intro raw o ho
    obtain ⟨s, _, hs⟩ := List.mem_filterMap.mp ho
    cases s with
    | none => simp at hs
    | some o2 =>
      by_cases hpos : 0 < o2.price
      · simp only [if_pos hpos, Option.some.injEq] at hs
        subst hs
        exact hpos
      · simp [hpos] at hs

/-- Witness for C7's amended theorem at concrete adapter outputs. -/
theorem collector_price_filters_witness :
    (⟨"CoinGecko", 3, 0.9⟩ : Obs).price ≠ 0 ∧ (0 : ℝ) < (⟨"Z", 2, 0.5⟩ : Obs).price :=
  ⟨collector_price_filters.1 (some 3) none none false ⟨"CoinGecko", 3, 0.9⟩
      (by norm_num [buildCryptoSources, pushIfTruthy]),
    collector_price_filters.2 [some ⟨"Z", 2, 0.5⟩] ⟨"Z", 2, 0.5⟩
      (by norm_num [validRealEstateSources, List.filterMap])⟩

/-- State of the orchestrator's single-flight mechanism: the `isUpdating`
flag, the number of collectors of the running cycle whose promises have not
yet settled, and the number of update cycles currently executing (tracked so
that the absence of two concurrently running cycles is statable). -/
structure AgentState where
  isUpdating : Bool
  pending : ℕ
  running : ℕ
deriving DecidableEq

/-- The six collectors registered in the orchestrator's constructor. -/
def numCollectors : ℕ := 6

/-- Events at the interleaving points of the single-threaded event loop: a
manual `POST /api/update` trigger, a scheduled cron trigger, and the
settlement of one collector's promise.  `updateAllPrices` checks `isUpdating`
and sets it with no intervening `await`, so check-then-set is one atomic
transition; the `finally` block clearing the flag runs when `Promise.all`
resolves, i.e. with the settlement of the last pending collector. -/
inductive Ev where
  | manualTrigger
  | scheduledTrigger
  | resolveOne
deriving DecidableEq

/-- Observable outcome of one event. -/
inductive Out where
  | accepted
  | rejected429
  | skipped
  | resolved
  | finished
  | idleNoop
deriving DecidableEq

/-- Transition function of the orchestrator model.  A manual trigger on a busy
agent is answered `429 Update already in progress`; a scheduled trigger on a
busy agent logs a warning and returns without doing anything; both otherwise
start a cycle over all collectors. -/
def step (s : AgentState) : Ev → AgentState × Out
  | .manualTrigger =>
    if s.isUpdating then (s, .rejected429)
    else ({ isUpdating := true, pending := numCollectors, running := s.running + 1 }, .accepted)
  | .scheduledTrigger =>
    if s.isUpdating then (s, .skipped)
    else ({ isUpdating := true, pending := numCollectors, running := s.running + 1 }, .accepted)
  | .resolveOne =>
    if s.isUpdating then
      if s.pending ≤ 1 then
        ({ isUpdating := false, pending := 0, running := s.running - 1 }, .finished)
      else ({ s with pending := s.pending - 1 }, .resolved)
    else (s, .idleNoop)

/-- Initial state: no cycle in flight. -/
def initState : AgentState := ⟨false, 0, 0⟩

/-- State after executing a sequence of events from the initial state. -/
def run (evs : List Ev) : AgentState := evs.foldl (fun s e => (step s e).1) initState

/-- Reachability invariant of the orchestrator model. -/
def Inv (s : AgentState) : Prop :=
  (s.isUpdating = true → s.running = 1 ∧ 1 ≤ s.pending ∧ s.pending ≤ numCollectors)
  ∧ (s.isUpdating = false → s.running = 0 ∧ s.pending = 0)

lemma inv_init : Inv initState := by
  constructor <;> intro h <;> simp [initState] at h ⊢

lemma inv_step (s : AgentState) (e : Ev) (h : Inv s) : Inv (step s e).1 := by
  obtain ⟨h1, h2⟩ := h
  cases e with
  | manualTrigger =>
    by_cases hu : s.isUpdating
    · simp only [step, if_pos hu]
      exact ⟨h1, h2⟩
    · simp only [step, if_neg hu]
      refine ⟨fun _ => ⟨?_, ?_⟩, fun hc => by simp at hc⟩
      · have h3 := h2 (by simpa using hu)
        show s.running + 1 = 1
        omega
      · show 1 ≤ numCollectors ∧ numCollectors ≤ numCollectors
        norm_num [numCollectors]
  | scheduledTrigger =>
    by_cases hu : s.isUpdating
    · simp only [step, if_pos hu]
      exact ⟨h1, h2⟩
    · simp only [step, if_neg hu]
      refine ⟨fun _ => ⟨?_, ?_⟩, fun hc => by simp at hc⟩
      · have h3 := h2 (by simpa using hu)
        show s.running + 1 = 1
        omega
      · show 1 ≤ numCollectors ∧ numCollectors ≤ numCollectors
        norm_num [numCollectors]
  | resolveOne =>
    by_cases hu : s.isUpdating
    · by_cases hp : s.pending ≤ 1
      · simp only [step, if_pos hu, if_pos hp]
        refine ⟨fun hc => by simp at hc, fun _ => ⟨?_, rfl⟩⟩
        have h3 := h1 (by simpa using hu)
        show s.running - 1 = 0
        omega
      · simp only [step, if_pos hu, if_neg hp]
        have h3 := h1 (by simpa using hu)
        refine ⟨fun _ => ⟨h3.1, ?_⟩, fun hc => ?_⟩
        · show 1 ≤ s.pending - 1 ∧ s.pending - 1 ≤ numCollectors
          have h4 := h3.2.1
          have h5 := h3.2.2
          omega
        · rw [show ({ s with pending := s.pending - 1 } : AgentState).isUpdating = s.isUpdating
            from rfl, show s.isUpdating = true by simpa using hu] at hc
          simp at hc
    · simp only [step, if_neg hu]
      exact ⟨h1, h2⟩

lemma inv_run (evs : List Ev) : Inv (run evs) := by
  suffices hgen : ∀ s : AgentState, Inv s → Inv (evs.foldl (fun s e => (step s e).1) s) by
    exact hgen initState inv_init
  induction evs with
  | nil => intro s hs; exact hs
  | cons e es ih =>
    intro s hs
    rw [List.foldl_cons]
    exact ih _ (inv_step s e hs)

/-- C3: a trigger — manual or scheduled — arriving while a cycle is in flight
is answered with a conflict signal (HTTP 429 resp. a logged skip) and leaves
the state, hence the running cycle and all stores, untouched; in every state
reachable from start at most one cycle is running; and the in-flight flag is
cleared exactly by the event that settles the last pending collector. -/
theorem single_flight_update :
    (∀ s : AgentState, s.isUpdating = true →
        step s .manualTrigger = (s, .rejected429)
        ∧ step s .scheduledTrigger = (s, .skipped))
    ∧ (∀ evs : List Ev, (run evs).running ≤ 1)
    ∧ (∀ (s : AgentState) (e : Ev), s.isUpdating = true →
        (step s e).1.isUpdating = false →
        e = .resolveOne ∧ s.pending ≤ 1 ∧ (step s e).2 = .finished) := by
  refine ⟨?_, ?_, ?_⟩
  · intro s hs
    constructor <;> simp [step, hs]
  · intro evs
    obtain ⟨h1, h2⟩ := inv_run evs
    by_cases hu : (run evs).isUpdating
    · have := h1 (by simpa using hu)
      omega
    · have := h2 (by simpa using hu)
      omega
  · intro s e hs hcleared
    cases e with
    | manualTrigger => rw [step, if_pos (by simp [hs])] at hcleared; exact absurd hcleared (by simp [hs])
    | scheduledTrigger => rw [step, if_pos (by simp [hs])] at hcleared; exact absurd hcleared (by simp [hs])
    | resolveOne =>
      by_cases hp : s.pending ≤ 1
      · refine ⟨rfl, hp, ?_⟩
        rw [step, if_pos (by simp [hs]), if_pos hp]
      · rw [step, if_pos (by simp [hs]), if_neg hp] at hcleared
        exact absurd hcleared (by simp [hs])

/-- Witness for C3: a busy state rejects both kinds of trigger unchanged. -/
theorem single_flight_update_witness :
    step ⟨true, 3, 1⟩ .manualTrigger = (⟨true, 3, 1⟩, .rejected429)
    ∧ step ⟨true, 3, 1⟩ .scheduledTrigger = (⟨true, 3, 1⟩, .skipped) :=
  single_flight_update.1 ⟨true, 3, 1⟩ rfl

/-- Current-price entry of the `dataStore` map. -/
structure CurrentData where
  currentPrice : ℝ
  timestamp : ℤ
  source : Option String
  verified : Bool

/-- Orchestrator state: the `dataStore`, `lastUpdate` and `updateHistory`
maps. -/
structure Store where
  dataStore : String → Option CurrentData
  lastUpdate : String → Option ℤ
  updateHistory : String → List HistoryPoint

/-- Translation of `updateItemData(symbol, price, source, verified)` at clock
reading `timestamp`: overwrite the current entry, record the update time and
append a capped history point. -/
def updateItemData (st : Store) (symbol : String) (price : ℝ) (src : Option String)
    (verified : Bool) (timestamp : ℤ) : Store :=
  { dataStore := fun k =>
      if k = symbol then some ⟨price, timestamp, src, verified⟩ else st.dataStore k
    lastUpdate := fun k => if k = symbol then some timestamp else st.lastUpdate k
    updateHistory := fun k =>
      if k = symbol then appendCapped (st.updateHistory k) ⟨price, timestamp, src, verified⟩
      else st.updateHistory k }

/-- Translation of the per-result branch of the fan-out handler of
`updateAllPrices`: `if (result.success && result.price && result.price > 0)`
apply `updateItemData` and count a success, otherwise log and count an error.
The accumulator is (store, successCount, errorCount). -/
noncomputable def applyResult (now : ℤ) (acc : Store × ℕ × ℕ) (r : CollectionResult) :
    Store × ℕ × ℕ :=
  match r.price with
  | some p =>
    if r.success = true ∧ p ≠ 0 ∧ 0 < p then
      (updateItemData acc.1 r.symbol p r.source r.verified now, acc.2.1 + 1, acc.2.2)
    else (acc.1, acc.2.1, acc.2.2 + 1)
  | none => (acc.1, acc.2.1, acc.2.2 + 1)

/-- Outcome of one collector's `collectData()` promise at the fan-out
boundary: a result list, or a raised fault caught by the surrounding
`catch` (which only counts an error). -/
inductive CollectorOutcome where
  | ok (results : List CollectionResult)
  | err

/-- One collector's contribution to the cycle. -/
noncomputable def applyCollector (now : ℤ) (acc : Store × ℕ × ℕ) (oc : CollectorOutcome) :
    Store × ℕ × ℕ :=
  match oc with
  | .ok results => results.foldl (applyResult now) acc
  | .err => (acc.1, acc.2.1, acc.2.2 + 1)

/-- Translation of the result application of one `updateAllPrices` cycle over
the outcomes of all collectors (the single-threaded event loop serializes the
per-result applications; list order stands for their completion order). -/
noncomputable def runCycle (now : ℤ) (st : Store) (ocs : List CollectorOutcome) :
    Store × ℕ × ℕ :=
  ocs.foldl (applyCollector now) (st, 0, 0)

lemma foldl_applyResult_shift (now : ℤ) (rs : List CollectionResult) :
    ∀ (st : Store) (sc ec : ℕ),
      rs.foldl (applyResult now) (st, sc, ec)
        = ((rs.foldl (applyResult now) (st, sc, 0)).1,
           (rs.foldl (applyResult now) (st, sc, 0)).2.1,
           ec + (rs.foldl (applyResult now) (st, sc, 0)).2.2) := by
  induction rs with
  | nil => intro st sc ec; simp
  | cons r rs ih =>
    intro st sc ec
    rw [List.foldl_cons, List.foldl_cons]
    rcases hr : r.price with _ | p
    · simp only [applyResult, hr]
      rw [ih st sc (ec + 1), ih st sc 1]
      rcases rs.foldl (applyResult now) (st, sc, 0) with ⟨F1, F2, F3⟩
      show (F1, F2, ec + 1 + F3) = (F1, F2, ec + (1 + F3))
      rw [Nat.add_assoc]
    · by_cases hcond : r.success = true ∧ p ≠ 0 ∧ 0 < p
      · simp only [applyResult, hr, if_pos hcond]
        exact ih _ _ _
      · simp only [applyResult, hr, if_neg hcond]
        rw [ih st sc (ec + 1), ih st sc 1]
        rcases rs.foldl (applyResult now) (st, sc, 0) with ⟨F1, F2, F3⟩
        show (F1, F2, ec + 1 + F3) = (F1, F2, ec + (1 + F3))
        rw [Nat.add_assoc]

lemma foldl_applyCollector_shift (now : ℤ) (ocs : List CollectorOutcome) :
    ∀ (st : Store) (sc ec : ℕ),
      ocs.foldl (applyCollector now) (st, sc, ec)
        = ((ocs.foldl (applyCollector now) (st, sc, 0)).1,
           (ocs.foldl (applyCollector now) (st, sc, 0)).2.1,
           ec + (ocs.foldl (applyCollector now) (st, sc, 0)).2.2) := by
  induction ocs with
  | nil => intro st sc ec; simp
  | cons oc ocs ih =>
    intro st sc ec
    rw [List.foldl_cons, List.foldl_cons]
    cases oc with
    | err =>
      simp only [applyCollector]
      rw [ih st sc (ec + 1), ih st sc 1]
      rcases ocs.foldl (applyCollector now) (st, sc, 0) with ⟨F1, F2, F3⟩
      show (F1, F2, ec + 1 + F3) = (F1, F2, ec + (1 + F3))
      rw [Nat.add_assoc]
    | ok rs =>
      simp only [applyCollector]
      rw [foldl_applyResult_shift now rs st sc ec]
      rcases hA : rs.foldl (applyResult now) (st, sc, 0) with ⟨A1, A2, A3⟩
      rw [ih A1 A2 (ec + A3), ih A1 A2 A3]
      rcases ocs.foldl (applyCollector now) (A1, A2, 0) with ⟨B1, B2, B3⟩
      show (B1, B2, ec + A3 + B3) = (B1, B2, ec + (A3 + B3))
      rw [Nat.add_assoc]

/-- C9: a collector that raises an unexpected fault is caught at the fan-out
boundary and counted as exactly one error; the store and the success count of
the cycle are the same as if that collector were absent, so every other
collector's valid results are still applied in the same cycle, and the cycle
completes normally (the application is a total function). -/
theorem collector_fault_isolation (now : ℤ) (st : Store) (xs ys : List CollectorOutcome) :
    (runCycle now st (xs ++ CollectorOutcome.err :: ys)).1
        = (runCycle now st (xs ++ ys)).1
    ∧ (runCycle now st (xs ++ CollectorOutcome.err :: ys)).2.1
        = (runCycle now st (xs ++ ys)).2.1
    ∧ (runCycle now st (xs ++ CollectorOutcome.err :: ys)).2.2
        = (runCycle now st (xs ++ ys)).2.2 + 1 := by
  unfold runCycle
  rw [List.foldl_append, List.foldl_append, List.foldl_cons]
  rcases hx : List.foldl (applyCollector now) (st, 0, 0) xs with ⟨S, C, E⟩
  show (List.foldl (applyCollector now) (applyCollector now (S, C, E) .err) ys).1 = _ ∧ _
  simp only [applyCollector]
  rw [foldl_applyCollector_shift now ys S C (E + 1), foldl_applyCollector_shift now ys S C E]
  rcases ys.foldl (applyCollector now) (S, C, 0) with ⟨B1, B2, B3⟩
  refine ⟨rfl, rfl, ?_⟩
  show E + 1 + B3 = E + B3 + 1
  omega

/-- All prices recorded anywhere in the store are strictly positive. -/
def storePositive (st : Store) : Prop :=
  (∀ k c, st.dataStore k = some c → 0 < c.currentPrice)
  ∧ (∀ k, ∀ p ∈ st.updateHistory k, 0 < p.price)

lemma mem_appendCapped (h : List HistoryPoint) (p q : HistoryPoint)
    (hq : q ∈ appendCapped h p) : q ∈ h ∨ q = p := by
  have hq2 : q ∈ h ++ [p] := by
    simp only [appendCapped] at hq
    split_ifs at hq with hc
    · exact List.mem_of_mem_drop hq
    · exact hq
  rcases List.mem_append.mp hq2 with hmem | hmem
  · exact Or.inl hmem
  · exact Or.inr (List.mem_singleton.mp hmem)

lemma updateItemData_positive (st : Store) (symbol : String) (price : ℝ)
    (src : Option String) (verified : Bool) (timestamp : ℤ)
    (hst : storePositive st) (hp : 0 < price) :
    storePositive (updateItemData st symbol price src verified timestamp) := by
  obtain ⟨hd, hh⟩ := hst
  constructor
  · intro k c hc
    simp only [updateItemData] at hc
    split_ifs at hc with hk
    · cases Option.some.injEq _ _ ▸ hc
      exact hp
    · exact hd k c hc
  · intro k q hq
    simp only [updateItemData] at hq
    split_ifs at hq with hk
    · rcases mem_appendCapped _ _ _ hq with hmem | rfl
      · exact hh k q hmem
      · exact hp
    · exact hh k q hq

lemma applyResult_positive (now : ℤ) (acc : Store × ℕ × ℕ) (r : CollectionResult)
    (hacc : storePositive acc.1) : storePositive (applyResult now acc r).1 := by
  rcases hr : r.price with _ | p
  · simpa only [applyResult, hr] using hacc
  · by_cases hcond : r.success = true ∧ p ≠ 0 ∧ 0 < p
    · simp only [applyResult, hr, if_pos hcond]
      exact updateItemData_positive _ _ _ _ _ _ hacc hcond.2.2
    · simpa only [applyResult, hr, if_neg hcond] using hacc

lemma foldl_applyResult_positive (now : ℤ) (rs : List CollectionResult) :
    ∀ acc : Store × ℕ × ℕ, storePositive acc.1 →
      storePositive (rs.foldl (applyResult now) acc).1 := by
  induction rs with
  | nil => intro acc hacc; exact hacc
  | cons r rs ih =>
    intro acc hacc
    rw [List.foldl_cons]
    exact ih _ (applyResult_positive now acc r hacc)

lemma foldl_applyCollector_positive (now : ℤ) (ocs : List CollectorOutcome) :
    ∀ acc : Store × ℕ × ℕ, storePositive acc.1 →
      storePositive (ocs.foldl (applyCollector now) acc).1 := by
  induction ocs with
  | nil => intro acc hacc; exact hacc
  | cons oc ocs ih =>
    intro acc hacc
    rw [List.foldl_cons]
    cases oc with
    | ok rs => exact ih _ (foldl_applyResult_positive now rs acc hacc)
    | err => exact ih _ hacc

/-- C10: the orchestrator re-filters collection results — a result is written
to the current-price map and appended to history only when `success` is true
and its price is present, truthy and strictly positive; any other result
(missing, zero or negative price, or `success` false) leaves the store
untouched and counts as an error.  Consequently a store in which every
recorded price is positive stays that way across any cycle, whatever the
collectors report. -/
theorem orchestrator_refilters_positive (now : ℤ) (st : Store)
    (ocs : List CollectorOutcome) (hst : storePositive st) :
    storePositive (runCycle now st ocs).1
    ∧ (∀ (acc : Store × ℕ × ℕ) (r : CollectionResult),
        (r.success = false ∨ r.price = none ∨ ∃ p, r.price = some p ∧ p ≤ 0) →
        (applyResult now acc r).1 = acc.1
          ∧ (applyResult now acc r).2.2 = acc.2.2 + 1) := by
  constructor
  · exact foldl_applyCollector_positive now ocs (st, 0, 0) hst
  · intro acc r hbad
    have hcondfalse : ∀ p : ℝ, r.price = some p → ¬(r.success = true ∧ p ≠ 0 ∧ 0 < p) := by
      intro p hp hcond
      rcases hbad with hs | hn | ⟨q, hq, hqle⟩
      · rw [hs] at hcond
        exact absurd hcond.1 (by simp)
      · rw [hn] at hp
        exact Option.noConfusion hp
      · rw [hq] at hp
        cases Option.some.injEq _ _ ▸ hp
        exact absurd hcond.2.2 (not_lt.mpr hqle)
    rcases hr : r.price with _ | p
    · exact ⟨by simp only [applyResult, hr], by simp only [applyResult, hr]⟩
    · have hneg := hcondfalse p hr
      exact ⟨by simp only [applyResult, hr, if_neg hneg],
        by simp only [applyResult, hr, if_neg hneg]⟩

/-- Store with no entries, as at process start. -/
def emptyStore : Store := ⟨fun _ => none, fun _ => none, fun _ => []⟩

/-- Faulty collection result used by the C10 witness: success with a negative
price. -/
noncomputable def badResult : CollectionResult :=
  ⟨"BTC", true, none, some (-2), none, false, none, none⟩

/-- Witness for C10: starting from the empty store, a cycle whose only result
reports success with a negative price leaves every stored price positive
(vacuously — nothing is written), and such a result is dropped and counted as
an error. -/
theorem orchestrator_refilters_positive_witness :
    storePositive (runCycle 0 emptyStore [CollectorOutcome.ok [badResult]]).1
    ∧ (applyResult 0 (emptyStore, 0, 0) badResult).1 = emptyStore
    ∧ (applyResult 0 (emptyStore, 0, 0) badResult).2.2 = 1 := by
  have hpos : storePositive emptyStore :=
    ⟨fun k c hc => by simp [emptyStore] at hc, fun k p hp => by simp [emptyStore] at hp⟩
  have happ := (orchestrator_refilters_positive 0 emptyStore [CollectorOutcome.ok [badResult]]
    hpos).2 (emptyStore, 0, 0) badResult
    (Or.inr (Or.inr ⟨-2, rfl, by norm_num⟩))
  exact ⟨(orchestrator_refilters_positive 0 emptyStore [CollectorOutcome.ok [badResult]]
    hpos).1, happ.1, happ.2⟩

end PriceTracker
